import Mathlib

/-!
# Verification of the shunting-yard arithmetic expression evaluator

Shallow embedding of `src/shunting_yard.c`: the lexer (`Scanner` family of
functions) and the evaluator (`eval_by_shunting_yard` and its helpers).

Modelling conventions:
* The C source buffer is a `List Char`; reading `source[i]` is `charAt`,
  which returns the NUL character past the end of the list, mirroring the
  NUL terminator of the C string buffer (the C code never reads more than
  one slot past the last character, which is exactly the terminator slot).
* C `double` values are modelled by `D`: exact rationals extended with the
  IEEE 754 special values `+inf`, `-inf` and `NaN`.  Every finite
  computation in this development is exact in binary64, so no rounding is
  modelled; negative zero is not modelled.
* `exit(...)` calls with a diagnostic become `Except Err` error results.
* The scanner driver loop `scanner_execute` runs on explicit fuel
  `s.length + 1`, which is always sufficient: every `scanner_scan_token`
  call advances `current` by at least one (`scan_token_lt` below), and the
  loop stops as soon as `current` reaches the terminator.
-/

/-- The C enum `TokenType` from shunting_yard.c. -/
inductive TokenType where
  | UMINUS
  | STAR
  | SLASH
  | PLUS
  | MINUS
  | NUMBER
  | LEFT_PAREN
  | RIGHT_PAREN
deriving DecidableEq, Repr

/-- The C table `TOKEN_TYPE_PRECEDENCE`. -/
def TOKEN_TYPE_PRECEDENCE : TokenType → Nat
  | TokenType.UMINUS => 4
  | TokenType.STAR => 3
  | TokenType.SLASH => 3
  | TokenType.PLUS => 2
  | TokenType.MINUS => 2
  | TokenType.NUMBER => 0
  | TokenType.LEFT_PAREN => 0
  | TokenType.RIGHT_PAREN => 0

/-- The C struct `Token`.  The C code leaves `literal` uninitialized for
non-number tokens and never reads it for them; the model stores `0` there. -/
structure Token where
  type : TokenType
  literal : ℚ
  start_at : Nat
  end_at : Nat
deriving DecidableEq, Repr

/-- The NUL terminator character of a C string. -/
def NUL : Char := Char.ofNat 0

/-- Reading `source[i]`: past the end of the stored characters the C buffer
holds the NUL terminator. -/
def charAt (s : List Char) (i : Nat) : Char := s.getD i NUL

/-- The C macro `IS_DIGIT`. -/
def isDigitC (c : Char) : Bool := decide ('0' ≤ c) && decide (c ≤ '9')

/-- Numeric value of a digit character, as used by `atof`. -/
def digitVal (c : Char) : Nat := c.toNat - '0'.toNat

/-- Model of C `double` values: exact rationals plus the IEEE 754 special
values.  Finite arithmetic is exact (all computations in this development
are exactly representable in binary64); negative zero is not modelled. -/
inductive D where
  | fin (q : ℚ)
  | posInf
  | negInf
  | nan
deriving DecidableEq, Repr

/-- IEEE negation. -/
def D.neg : D → D
  | D.fin q => D.fin (-q)
  | D.posInf => D.negInf
  | D.negInf => D.posInf
  | D.nan => D.nan

/-- IEEE addition (on the modelled values). -/
def D.add : D → D → D
  | D.nan, _ => D.nan
  | _, D.nan => D.nan
  | D.fin a, D.fin b => D.fin (a + b)
  | D.fin _, D.posInf => D.posInf
  | D.fin _, D.negInf => D.negInf
  | D.posInf, D.fin _ => D.posInf
  | D.negInf, D.fin _ => D.negInf
  | D.posInf, D.posInf => D.posInf
  | D.negInf, D.negInf => D.negInf
  | D.posInf, D.negInf => D.nan
  | D.negInf, D.posInf => D.nan

/-- IEEE subtraction; on these values `a - b` coincides with `a + (-b)`. -/
def D.sub (a b : D) : D := D.add a (D.neg b)

/-- IEEE multiplication (on the modelled values). -/
def D.mul : D → D → D
  | D.nan, _ => D.nan
  | _, D.nan => D.nan
  | D.fin a, D.fin b => D.fin (a * b)
  | D.fin a, D.posInf => if a = 0 then D.nan else if 0 < a then D.posInf else D.negInf
  | D.fin a, D.negInf => if a = 0 then D.nan else if 0 < a then D.negInf else D.posInf
  | D.posInf, D.fin b => if b = 0 then D.nan else if 0 < b then D.posInf else D.negInf
  | D.negInf, D.fin b => if b = 0 then D.nan else if 0 < b then D.negInf else D.posInf
  | D.posInf, D.posInf => D.posInf
  | D.posInf, D.negInf => D.negInf
  | D.negInf, D.posInf => D.negInf
  | D.negInf, D.negInf => D.posInf

/-- IEEE division (on the modelled values): division of a nonzero finite
value by zero gives a signed infinity, `0/0` gives NaN. -/
def D.div : D → D → D
  | D.nan, _ => D.nan
  | _, D.nan => D.nan
  | D.fin a, D.fin b =>
      if b = 0 then (if a = 0 then D.nan else if 0 < a then D.posInf else D.negInf)
      else D.fin (a / b)
  | D.fin _, D.posInf => D.fin 0
  | D.fin _, D.negInf => D.fin 0
  | D.posInf, D.fin b => if 0 ≤ b then D.posInf else D.negInf
  | D.negInf, D.fin b => if 0 ≤ b then D.negInf else D.posInf
  | D.posInf, D.posInf => D.nan
  | D.posInf, D.negInf => D.nan
  | D.negInf, D.posInf => D.nan
  | D.negInf, D.negInf => D.nan

/-- Every `exit(...)` diagnostic of shunting_yard.c that the core pipeline
can raise, as an error value. -/
inductive Err where
  /-- "Unexpected character: %c at position %d." -/
  | parsing (c : Char) (pos : Nat)
  /-- "Operators stack is overflowed." -/
  | operatorsOverflow
  /-- "Operators stack is empty." (guarded against in every caller) -/
  | operatorsEmpty
  /-- "Values stack is overflowed." -/
  | valuesOverflow
  /-- "Values stack is empty." -/
  | valuesEmpty
  /-- "Invalid token type (at pos %d..%d) when an operator expected." -/
  | invalidOperatorToken (s e : Nat)
  /-- "Mismatched right paren at position %d." -/
  | mismatchedRight (pos : Nat)
  /-- "Mismatched left paren at position %d." -/
  | mismatchedLeft (pos : Nat)
  /-- "Cannot evaluate the expression to the concrete value." -/
  | cannotReduce
deriving DecidableEq, Repr

/-! ## Lexer -/

/-- The `while (IS_DIGIT(scanner_peek(scanner))) scanner_advance(scanner);`
loop of `scanner_number`: first index at or after `i` holding a non-digit.
The run length is the length of the maximal digit prefix starting at `i`
(past the end of the buffer `charAt` yields NUL, which is not a digit). -/
def skipDigits (s : List Char) (i : Nat) : Nat :=
  i + ((s.drop i).takeWhile isDigitC).length

/-- Final value of `scanner->current` after `scanner_number` runs with the
first digit at index `start` already consumed (`current = start + 1`):
consume the remaining digits, then a fraction only when the character after
the digit run is a dot immediately followed by a digit (the `scanner_peek`
and `scanner_peek_next` test). -/
def numberEnd (s : List Char) (start : Nat) : Nat :=
  let j := skipDigits s (start + 1)
  if charAt s j = '.' ∧ isDigitC (charAt s (j + 1)) = true then skipDigits s (j + 1) else j

/-- The literal value `scanner_number` stores.  Faithful to the C code,
bug included: the C code recomputes `end_at` as `token->start_at + 1`
(instead of `token->end_at`), so `liter_as_str` receives exactly the TWO
characters `source[start_at]` and `source[start_at + 1]` followed by NUL,
and `atof` of that string is the first digit, or the two-digit value when
the second character is also a digit (`atof` stops at the first character
that cannot extend a decimal literal). -/
def numberLiteral (s : List Char) (start : Nat) : ℚ :=
  if isDigitC (charAt s (start + 1)) then
    (10 * digitVal (charAt s start) + digitVal (charAt s (start + 1)) : ℚ)
  else (digitVal (charAt s start) : ℚ)

/-- `scanner_number`: the first digit is at index `start` and has been
consumed.  Emits the Number token (span set by `scanner_add_token` with
`current = numberEnd`, hence `end_at = numberEnd - 1`) and returns the new
`current`. -/
def scanner_number (s : List Char) (start : Nat) (tokens : List Token) :
    List Token × Nat :=
  let j2 := numberEnd s start
  (tokens ++ [⟨TokenType.NUMBER, numberLiteral s start, start, j2 - 1⟩], j2)

/-- The test on `scanner->tokens` in the `-` branch of
`scanner_scan_token`: `count == 0`, or the last emitted token is neither a
Number nor a RightParen. -/
def prevAllowsUnary (tokens : List Token) : Bool :=
  match tokens.getLast? with
  | none => true
  | some t =>
      decide (t.type ≠ TokenType.NUMBER) && decide (t.type ≠ TokenType.RIGHT_PAREN)

/-- `scanner_scan_token`: dispatch on the character at `start`
(`scanner->start = scanner->current` was just set; `scanner_advance`
consumed it).  Returns the token list and the new `current` on success. -/
def scan_token (s : List Char) (start : Nat) (tokens : List Token) :
    Except Err (List Token × Nat) :=
  let c := charAt s start
  if c = '+' then .ok (tokens ++ [⟨TokenType.PLUS, 0, start, start⟩], start + 1)
  else if c = '-' then
    if prevAllowsUnary tokens then
      .ok (tokens ++ [⟨TokenType.UMINUS, 0, start, start⟩], start + 1)
    else
      .ok (tokens ++ [⟨TokenType.MINUS, 0, start, start⟩], start + 1)
  else if c = '*' then .ok (tokens ++ [⟨TokenType.STAR, 0, start, start⟩], start + 1)
  else if c = '/' then .ok (tokens ++ [⟨TokenType.SLASH, 0, start, start⟩], start + 1)
  else if c = '(' then .ok (tokens ++ [⟨TokenType.LEFT_PAREN, 0, start, start⟩], start + 1)
  else if c = ')' then .ok (tokens ++ [⟨TokenType.RIGHT_PAREN, 0, start, start⟩], start + 1)
  else if c = ' ' then .ok (tokens, start + 1)
  else if isDigitC c then .ok (scanner_number s start tokens)
  else .error (Err.parsing c start)

/-- The `while (!scanner_is_at_end(scanner))` loop of `scanner_execute`,
on explicit fuel (see the header comment: `s.length + 1` fuel always
suffices, so the fuel-exhaustion branch is unreachable from
`scanner_execute`). -/
def scan_go (s : List Char) : Nat → Nat → List Token → Except Err (List Token)
  | 0, _, tokens => .ok tokens
  | fuel + 1, current, tokens =>
    if charAt s current = NUL ∨ charAt s current = '\n' then .ok tokens
    else
      match scan_token s current tokens with
      | .error e => .error e
      | .ok (tokens', current') => scan_go s fuel current' tokens'

/-- `scanner_execute` on a fresh scanner (`current = 0`, empty token list). -/
def scanner_execute (s : List Char) : Except Err (List Token) :=
  scan_go s (s.length + 1) 0 []

/-- Lex a source string. -/
def lexString (str : String) : Except Err (List Token) :=
  scanner_execute str.toList

/-- Standard decimal parse of a number literal (digits, optionally a dot
and more digits), locale-independent — what the spec says the emitted
literal value should be.  Used to state what the buggy `numberLiteral`
diverges from. -/
def digitsToNat (cs : List Char) : Nat := cs.foldl (fun a c => 10 * a + digitVal c) 0

/-- See `digitsToNat`; standard decimal parse of the full literal text. -/
def decimalParse (cs : List Char) : ℚ :=
  let intPart := cs.takeWhile isDigitC
  match cs.dropWhile isDigitC with
  | '.' :: frac => (digitsToNat intPart : ℚ) + (digitsToNat frac : ℚ) / (10 : ℚ) ^ frac.length
  | _ => (digitsToNat intPart : ℚ)

/-! ## Evaluator -/

/-- `STACK_SIZE_SHY_OPERATORS` and `STACK_SIZE_SHY_VALUES`. -/
def STACK_SIZE : Nat := 1024

/-- `push_operator`: the stack grows at the head of the list. -/
def push_operator (ops : List Token) (t : Token) : Except Err (List Token) :=
  if STACK_SIZE ≤ ops.length then .error Err.operatorsOverflow else .ok (t :: ops)

/-- `push_value`. -/
def push_value (vals : List D) (v : D) : Except Err (List D) :=
  if STACK_SIZE ≤ vals.length then .error Err.valuesOverflow else .ok (v :: vals)

/-- `pop_value`. -/
def pop_value (vals : List D) : Except Err (D × List D) :=
  match vals with
  | [] => .error Err.valuesEmpty
  | v :: rest => .ok (v, rest)

/-- The C function `evaluate`: pop the (right/only) operand, then apply the
operator, popping the left operand for the binary cases. -/
def evaluate (op : Token) (vals : List D) : Except Err (D × List D) := do
  let (operand, vals) ← pop_value vals
  match op.type with
  | TokenType.PLUS => do
      let (l, vals) ← pop_value vals
      pure (D.add l operand, vals)
  | TokenType.MINUS => do
      let (l, vals) ← pop_value vals
      pure (D.sub l operand, vals)
  | TokenType.UMINUS => pure (D.neg operand, vals)
  | TokenType.STAR => do
      let (l, vals) ← pop_value vals
      pure (D.mul l operand, vals)
  | TokenType.SLASH => do
      let (l, vals) ← pop_value vals
      pure (D.div l operand, vals)
  | _ => .error (Err.invalidOperatorToken op.start_at op.end_at)

/-- The inner `while` loop of the operator branch of
`eval_by_shunting_yard`: pop and reduce while the stack is non-empty, its
top is not a LeftParen, and the top's precedence is at least `prec`. -/
def opLoop (prec : Nat) (ops : List Token) (vals : List D) :
    Except Err (List Token × List D) :=
  match ops with
  | [] => .ok ([], vals)
  | top :: rest =>
    if top.type ≠ TokenType.LEFT_PAREN ∧ prec ≤ TOKEN_TYPE_PRECEDENCE top.type then
      match evaluate top vals with
      | .error e => .error e
      | .ok (v, vals') =>
        match push_value vals' v with
        | .error e => .error e
        | .ok vals'' => opLoop prec rest vals''
    else .ok (top :: rest, vals)

/-- The inner `while` loop of the RightParen branch: pop and reduce while
the stack is non-empty and its top is not a LeftParen. -/
def rparenLoop (ops : List Token) (vals : List D) :
    Except Err (List Token × List D) :=
  match ops with
  | [] => .ok ([], vals)
  | top :: rest =>
    if top.type ≠ TokenType.LEFT_PAREN then
      match evaluate top vals with
      | .error e => .error e
      | .ok (v, vals') =>
        match push_value vals' v with
        | .error e => .error e
        | .ok vals'' => rparenLoop rest vals''
    else .ok (top :: rest, vals)

/-- Reduce a list of already-popped operators in order against the value
stack (each step is `push_value(evaluate(...))`).  `opLoop`, `rparenLoop`
and `drain` each perform these steps on the operators they pop. -/
def reduceSeq (pend : List Token) (vals : List D) : Except Err (List D) :=
  match pend with
  | [] => .ok vals
  | op :: rest =>
    match evaluate op vals with
    | .error e => .error e
    | .ok (v, vals') =>
      match push_value vals' v with
      | .error e => .error e
      | .ok vals'' => reduceSeq rest vals''

/-- The token loop of `eval_by_shunting_yard` (state: remaining tokens,
operator stack, value stack).  Mirrors the C control flow: Number pushes
its literal; a token of positive precedence runs `opLoop` then is pushed; a
LeftParen is pushed; a RightParen runs `rparenLoop` and then either fails
(empty stack: mismatched right paren) or discards the matching LeftParen. -/
def mainLoop : List Token → List Token → List D → Except Err (List Token × List D)
  | [], ops, vals => .ok (ops, vals)
  | t :: ts, ops, vals =>
    if t.type = TokenType.NUMBER then
      match push_value vals (D.fin t.literal) with
      | .error e => .error e
      | .ok vals' => mainLoop ts ops vals'
    else if 0 < TOKEN_TYPE_PRECEDENCE t.type then
      match opLoop (TOKEN_TYPE_PRECEDENCE t.type) ops vals with
      | .error e => .error e
      | .ok (ops₁, vals₁) =>
        match push_operator ops₁ t with
        | .error e => .error e
        | .ok ops₂ => mainLoop ts ops₂ vals₁
    else if t.type = TokenType.LEFT_PAREN then
      match push_operator ops t with
      | .error e => .error e
      | .ok ops' => mainLoop ts ops' vals
    else if t.type = TokenType.RIGHT_PAREN then
      match rparenLoop ops vals with
      | .error e => .error e
      | .ok (ops', vals') =>
        match ops' with
        | [] => .error (Err.mismatchedRight t.start_at)
        | _ :: rest => mainLoop ts rest vals'
    else mainLoop ts ops vals

/-- The `while (shy_operators_count > 0)` loop after the token stream is
exhausted: pop every remaining operator, failing on a LeftParen
(mismatched left paren), otherwise reducing it. -/
def drain : List Token → List D → Except Err (List D)
  | [], vals => .ok vals
  | op :: rest, vals =>
    if op.type = TokenType.LEFT_PAREN then .error (Err.mismatchedLeft op.start_at)
    else
      match evaluate op vals with
      | .error e => .error e
      | .ok (v, vals') =>
        match push_value vals' v with
        | .error e => .error e
        | .ok vals'' => drain rest vals''

/-- `eval_by_shunting_yard`: run the token loop from empty stacks, drain
the operator stack, and require exactly one value to remain (which the C
code then pops, leaving both stacks empty). -/
def eval_by_shunting_yard (ts : List Token) : Except Err D :=
  match mainLoop ts [] [] with
  | .error e => .error e
  | .ok (ops, vals) =>
    match drain ops vals with
    | .error e => .error e
    | .ok vals' =>
      match vals' with
      | [v] => .ok v
      | _ => .error Err.cannotReduce

/-- The whole pipeline on a source string: lex, then evaluate. -/
def evalString (str : String) : Except Err D :=
  match lexString str with
  | .error e => .error e
  | .ok ts => eval_by_shunting_yard ts

/-! ## Well-formed expressions

The spec quantifies over "well-formed expressions with balanced
parentheses".  `G lvl ts` is the usual stratified infix grammar over token
sequences: level 0 an atom (a number, or a parenthesized expression),
level 1 a factor (an atom, optionally under one unary minus), level 2 a
term (factors under `*` and `/`), level 3 an expression (terms under
binary `+` and `-`).  `G 3` is the well-formedness predicate. -/
inductive G : Nat → List Token → Prop where
  | num {t : Token} : t.type = TokenType.NUMBER → G 0 [t]
  | paren {lp rp : Token} {ts : List Token} :
      G 3 ts → lp.type = TokenType.LEFT_PAREN → rp.type = TokenType.RIGHT_PAREN →
      G 0 (lp :: ts ++ [rp])
  | atom_fact {ts : List Token} : G 0 ts → G 1 ts
  | neg {u : Token} {ts : List Token} :
      u.type = TokenType.UMINUS → G 0 ts → G 1 (u :: ts)
  | fact_term {ts : List Token} : G 1 ts → G 2 ts
  | mul {op : Token} {t1 t2 : List Token} :
      G 2 t1 → (op.type = TokenType.STAR ∨ op.type = TokenType.SLASH) → G 1 t2 →
      G 2 (t1 ++ op :: t2)
  | term_expr {ts : List Token} : G 2 ts → G 3 ts
  | add {op : Token} {t1 t2 : List Token} :
      G 3 t1 → (op.type = TokenType.PLUS ∨ op.type = TokenType.MINUS) → G 2 t2 →
      G 3 (t1 ++ op :: t2)

/-- Precedence threshold below which an operator stack top does not
interact with a phrase of the given grammar level: an expression pops tops
of precedence ≥ 2, a term ≥ 3, a factor ≥ 4, an atom pops nothing. -/
def plevel : Nat → Nat
  | 0 => 5
  | 1 => 4
  | 2 => 3
  | _ => 2

/-- The operator stack is ready for a phrase popping precedences ≥ p: it
is empty, or its top is a LeftParen or has precedence below `p` (so the
phrase's operator pops stop at the boundary). -/
def Stop (p : Nat) (ops : List Token) : Prop :=
  match ops with
  | [] => True
  | t :: _ => t.type = TokenType.LEFT_PAREN ∨ TOKEN_TYPE_PRECEDENCE t.type < p

/-- Pending operators a phrase leaves on the stack: no LeftParen, all of
precedence at least `p`. -/
def PendOk (p : Nat) (pend : List Token) : Prop :=
  ∀ t ∈ pend, t.type ≠ TokenType.LEFT_PAREN ∧ p ≤ TOKEN_TYPE_PRECEDENCE t.type

/-! ## Token span invariants -/

/-- Span invariant of an emitted token (claim C9): offsets are valid
indices into the source, single-character (non-number) tokens have
`end_at = start_at`, and a number token's span covers exactly the
characters `scanner_number` consumed (its first character is a digit and
the span ends right before `numberEnd`). -/
def TokenOK (s : List Char) (t : Token) : Prop :=
  t.start_at ≤ t.end_at ∧ t.end_at < s.length ∧
  (t.type ≠ TokenType.NUMBER → t.end_at = t.start_at) ∧
  (t.type = TokenType.NUMBER →
    isDigitC (charAt s t.start_at) = true ∧ t.end_at + 1 = numberEnd s t.start_at)

/-- The slice of the source covered by a token's (inclusive) span. -/
def tokenText (s : List Char) (t : Token) : List Char :=
  (s.drop t.start_at).take (t.end_at + 1 - t.start_at)

/-- The characters `scanner_number` consumes for a literal starting at
`i`: exactly the positions `i` up to `numberEnd s i - 1`. -/
def litChars (s : List Char) (i : Nat) : List Char :=
  (s.drop i).take (numberEnd s i - i)

/-- The loop condition of `opLoop` as a Boolean predicate on the stack
top: not a LeftParen, and of precedence at least `p`. -/
def popCond (p : Nat) (t : Token) : Bool :=
  decide (t.type ≠ TokenType.LEFT_PAREN) && decide (p ≤ TOKEN_TYPE_PRECEDENCE t.type)

/-! ## Concrete tokens used in counterexamples -/

/-- A LeftParen token (the grammar and the evaluator ignore spans of
well-matched parens). -/
def lpTok : Token := ⟨TokenType.LEFT_PAREN, 0, 0, 0⟩

/-- A RightParen token. -/
def rpTok : Token := ⟨TokenType.RIGHT_PAREN, 0, 0, 0⟩

/-- The number token `1`. -/
def oneTok : Token := ⟨TokenType.NUMBER, 1, 0, 0⟩

/-- A well-formed, fully balanced expression — `1` under 1025 nested
parentheses — whose operator stack usage exceeds the fixed capacity of
1024 slots. -/
def deepParens : List Token :=
  List.replicate 1025 lpTok ++ [oneTok] ++ List.replicate 1025 rpTok

/-! ## Helper lemmas: characters and digit runs -/

theorem charAt_of_le (s : List Char) (i : Nat) (h : s.length ≤ i) : charAt s i = NUL := by
  simp [charAt, List.getD, List.getElem?_eq_none h]

theorem lt_length_of_charAt_ne_nul {s : List Char} {i : Nat} (h : charAt s i ≠ NUL) :
    i < s.length := by
  by_contra hc
  push_neg at hc
  exact h (charAt_of_le s i hc)

theorem isDigitC_NUL : isDigitC NUL = false := by decide

theorem lt_length_of_isDigitC {s : List Char} {i : Nat}
    (h : isDigitC (charAt s i) = true) : i < s.length := by
  apply lt_length_of_charAt_ne_nul
  intro hnul
  rw [hnul, isDigitC_NUL] at h
  cases h

theorem charAt_eq_getElem {s : List Char} {i : Nat} (h : i < s.length) :
    charAt s i = s[i] :=
  List.getD_eq_getElem s NUL h

theorem le_skipDigits (s : List Char) (i : Nat) : i ≤ skipDigits s i :=
  Nat.le_add_right _ _

theorem isDigitC_of_lt_skipDigits {s : List Char} {i k : Nat}
    (h1 : i ≤ k) (h2 : k < skipDigits s i) : isDigitC (charAt s k) = true := by
  have hm : k - i < ((s.drop i).takeWhile isDigitC).length := by
    simp only [skipDigits] at h2
    omega
  have hlen : ((s.drop i).takeWhile isDigitC).length ≤ (s.drop i).length :=
    ( List.takeWhile_prefix isDigitC).length_le
  have hki : k - i < (s.drop i).length := lt_of_lt_of_le hm hlen
  have hks : k < s.length := by
    rw [List.length_drop] at hki
    omega
  have h3 : ((s.drop i).takeWhile isDigitC)[k - i] = (s.drop i)[k - i] :=
    ( List.takeWhile_prefix isDigitC).getElem hm
  have h4 : (s.drop i)[k - i] = s[k] := by
    rw [List.getElem_drop]
    congr 1
    omega
  have h5 : isDigitC (((s.drop i).takeWhile isDigitC)[k - i]) = true :=
    List.mem_takeWhile_imp (List.getElem_mem _)
  rw [charAt_eq_getElem hks, ← h4, ← h3]
  exact h5

theorem skipDigits_succ {s : List Char} {i : Nat} (h : isDigitC (charAt s i) = true) :
    i + 1 ≤ skipDigits s i := by
  have hi : i < s.length := lt_length_of_isDigitC h
  have hdrop : s.drop i = s[i] :: s.drop (i + 1) := List.drop_eq_getElem_cons hi
  have hch : isDigitC s[i] = true := by
    rw [← charAt_eq_getElem hi]
    exact h
  have : ((s.drop i).takeWhile isDigitC).length =
      ((s.drop (i + 1)).takeWhile isDigitC).length + 1 := by
    rw [hdrop, List.takeWhile_cons_of_pos hch]
    simp
  simp only [skipDigits, this]
  omega

theorem le_numberEnd (s : List Char) (start : Nat) : start + 1 ≤ numberEnd s start := by
  have h1 := le_skipDigits s (start + 1)
  have h2 := le_skipDigits s (skipDigits s (start + 1) + 1)
  simp only [numberEnd]
  split <;> omega

theorem numberEnd_last_digit {s : List Char} {start : Nat}
    (h : isDigitC (charAt s start) = true) :
    isDigitC (charAt s (numberEnd s start - 1)) = true := by
  simp only [numberEnd]
  split
  case isTrue hcond =>
    have h1 : skipDigits s (start + 1) + 1 + 1 ≤
        skipDigits s (skipDigits s (start + 1) + 1) := skipDigits_succ hcond.2
    apply isDigitC_of_lt_skipDigits (i := skipDigits s (start + 1) + 1) <;> omega
  case isFalse hcond =>
    rcases Nat.lt_or_ge (start + 1) (skipDigits s (start + 1)) with hlt | hge
    · apply isDigitC_of_lt_skipDigits (i := start + 1) <;> omega
    · have heq : skipDigits s (start + 1) = start + 1 :=
        Nat.le_antisymm hge (le_skipDigits _ _)
      rw [heq]
      simpa using h

theorem numberEnd_sub_one_lt {s : List Char} {start : Nat}
    (h : isDigitC (charAt s start) = true) : numberEnd s start - 1 < s.length :=
  lt_length_of_isDigitC (numberEnd_last_digit h)

/-- Exhaustive description of the outcomes of `scanner_scan_token`: a
single-character non-number token, a skipped space, a number token, or a
parsing error. -/
theorem scan_token_cases (s : List Char) (cur : Nat) (tokens : List Token) :
    (∃ ty, ty ≠ TokenType.NUMBER ∧
      scan_token s cur tokens = Except.ok (tokens ++ [⟨ty, 0, cur, cur⟩], cur + 1)) ∨
    (charAt s cur = ' ' ∧ scan_token s cur tokens = Except.ok (tokens, cur + 1)) ∨
    (isDigitC (charAt s cur) = true ∧
      scan_token s cur tokens = Except.ok
        (tokens ++ [⟨TokenType.NUMBER, numberLiteral s cur, cur, numberEnd s cur - 1⟩],
          numberEnd s cur)) ∨
    (∃ e, scan_token s cur tokens = Except.error e) := by
  by_cases h1 : charAt s cur = '+'
  · exact Or.inl ⟨TokenType.PLUS, by decide, by simp [scan_token, h1]⟩
  by_cases h2 : charAt s cur = '-'
  · by_cases hp : prevAllowsUnary tokens
    · exact Or.inl ⟨TokenType.UMINUS, by decide, by simp [scan_token, h1, h2, hp]⟩
    · exact Or.inl ⟨TokenType.MINUS, by decide, by simp [scan_token, h1, h2, hp]⟩
  by_cases h3 : charAt s cur = '*'
  · exact Or.inl ⟨TokenType.STAR, by decide, by simp [scan_token, h1, h2, h3]⟩
  by_cases h4 : charAt s cur = '/'
  · exact Or.inl ⟨TokenType.SLASH, by decide, by simp [scan_token, h1, h2, h3, h4]⟩
  by_cases h5 : charAt s cur = '('
  · exact Or.inl ⟨TokenType.LEFT_PAREN, by decide, by simp [scan_token, h1, h2, h3, h4, h5]⟩
  by_cases h6 : charAt s cur = ')'
  · exact Or.inl ⟨TokenType.RIGHT_PAREN, by decide,
      by simp [scan_token, h1, h2, h3, h4, h5, h6]⟩
  by_cases h7 : charAt s cur = ' '
  · exact Or.inr (Or.inl ⟨h7, by simp [scan_token, h1, h2, h3, h4, h5, h6, h7]⟩)
  by_cases h8 : isDigitC (charAt s cur) = true
  · refine Or.inr (Or.inr (Or.inl ⟨h8, ?_⟩))
    simp [scan_token, scanner_number, h1, h2, h3, h4, h5, h6, h7, h8]
  · refine Or.inr (Or.inr (Or.inr ⟨Err.parsing (charAt s cur) cur, ?_⟩))
    simp [scan_token, h1, h2, h3, h4, h5, h6, h7, h8]

theorem scan_token_lt {s : List Char} {cur : Nat} {tokens tokens' : List Token}
    {cur' : Nat} (h : scan_token s cur tokens = Except.ok (tokens', cur')) :
    cur < cur' := by
  have hne := le_numberEnd s cur
  rcases scan_token_cases s cur tokens with ⟨ty, -, he⟩ | ⟨-, he⟩ | ⟨-, he⟩ | ⟨e, he⟩ <;>
    rw [he] at h
  · obtain ⟨-, h2⟩ := Prod.mk.injEq .. ▸ Except.ok.inj h
    omega
  · obtain ⟨-, h2⟩ := Prod.mk.injEq .. ▸ Except.ok.inj h
    omega
  · obtain ⟨-, h2⟩ := Prod.mk.injEq .. ▸ Except.ok.inj h
    omega
  · cases h

/-! ## Helper lemmas: evaluator steps -/

theorem prec_le_four (ty : TokenType) : TOKEN_TYPE_PRECEDENCE ty ≤ 4 := by
  cases ty <;> decide

theorem push_operator_ok {ops : List Token} {t : Token} (h : ops.length < STACK_SIZE) :
    push_operator ops t = Except.ok (t :: ops) := by
  simp only [push_operator]
  rw [if_neg (by omega)]

theorem push_value_ok {vals : List D} {v : D} (h : vals.length < STACK_SIZE) :
    push_value vals v = Except.ok (v :: vals) := by
  simp only [push_value]
  rw [if_neg (by omega)]

theorem Stop_mono {p q : Nat} {ops : List Token} (hpq : p ≤ q) (h : Stop p ops) :
    Stop q ops := by
  cases ops with
  | nil => exact trivial
  | cons t rest =>
    simp only [Stop] at h ⊢
    rcases h with h1 | h1
    · exact Or.inl h1
    · exact Or.inr (by omega)

theorem PendOk_mono {p q : Nat} {pend : List Token} (hqp : q ≤ p) (h : PendOk p pend) :
    PendOk q pend :=
  fun t ht => ⟨(h t ht).1, le_trans hqp (h t ht).2⟩

theorem G_length {lvl : Nat} {ts : List Token} (h : G lvl ts) : 1 ≤ ts.length := by
  induction h <;> simp_all <;> omega

theorem opLoop_stop {p : Nat} {ops : List Token} {vals : List D} (h : Stop p ops) :
    opLoop p ops vals = Except.ok (ops, vals) := by
  cases ops with
  | nil => rfl
  | cons top rest =>
    have hneg : ¬(top.type ≠ TokenType.LEFT_PAREN ∧ p ≤ TOKEN_TYPE_PRECEDENCE top.type) := by
      simp only [Stop] at h
      rcases h with h1 | h1
      · intro hc
        exact hc.1 h1
      · intro hc
        omega
    simp only [opLoop]
    rw [if_neg hneg]

theorem reduceSeq_append_ok {a b : List Token} {vals vals' : List D}
    (h : reduceSeq a vals = Except.ok vals') :
    reduceSeq (a ++ b) vals = reduceSeq b vals' := by
  induction a generalizing vals with
  | nil =>
    simp only [reduceSeq, Except.ok.injEq] at h
    subst h
    rfl
  | cons op rest ih =>
    simp only [List.cons_append, reduceSeq]
    cases he : evaluate op vals with
    | error e =>
      simp only [reduceSeq, he] at h
      exact Except.noConfusion h
    | ok pr =>
      obtain ⟨v, w⟩ := pr
      simp only [reduceSeq, he] at h
      cases hp : push_value w v with
      | error e =>
        simp only [hp] at h
        exact Except.noConfusion h
      | ok w' =>
        simp only [hp] at h
        simp only [hp]
        exact ih h

theorem opLoop_pend_ok {p : Nat} {pend ops : List Token} {vals vals' : List D}
    (hpend : PendOk p pend) (hstop : Stop p ops)
    (hred : reduceSeq pend vals = Except.ok vals') :
    opLoop p (pend ++ ops) vals = Except.ok (ops, vals') := by
  induction pend generalizing vals with
  | nil =>
    simp only [reduceSeq, Except.ok.injEq] at hred
    subst hred
    exact opLoop_stop hstop
  | cons top rest ih =>
    have htop := hpend top (List.mem_cons_self _ _)
    have hrest : PendOk p rest := fun t ht => hpend t (List.mem_cons_of_mem _ ht)
    simp only [List.cons_append, opLoop]
    rw [if_pos ⟨htop.1, htop.2⟩]
    cases he : evaluate top vals with
    | error e =>
      simp only [reduceSeq, he] at hred
      exact Except.noConfusion hred
    | ok pr =>
      obtain ⟨v, w⟩ := pr
      simp only [reduceSeq, he] at hred
      cases hp : push_value w v with
      | error e =>
        simp only [hp] at hred
        exact Except.noConfusion hred
      | ok w' =>
        simp only [hp] at hred
        simp only [hp]
        exact ih hrest hred

theorem rparenLoop_pend_ok {pend ops : List Token} {vals vals' : List D}
    (hpend : ∀ t ∈ pend, t.type ≠ TokenType.LEFT_PAREN)
    (hstop : ops = [] ∨ ∃ lp rest, ops = lp :: rest ∧ lp.type = TokenType.LEFT_PAREN)
    (hred : reduceSeq pend vals = Except.ok vals') :
    rparenLoop (pend ++ ops) vals = Except.ok (ops, vals') := by
  induction pend generalizing vals with
  | nil =>
    simp only [reduceSeq, Except.ok.injEq] at hred
    subst hred
    rcases hstop with rfl | ⟨lp, rest, rfl, hlp⟩
    · rfl
    · simp only [List.nil_append, rparenLoop]
      rw [if_neg (by simp [hlp])]
  | cons top rest ih =>
    have htop := hpend top (List.mem_cons_self _ _)
    have hrest : ∀ t ∈ rest, t.type ≠ TokenType.LEFT_PAREN :=
      fun t ht => hpend t (List.mem_cons_of_mem _ ht)
    simp only [List.cons_append, rparenLoop]
    rw [if_pos htop]
    cases he : evaluate top vals with
    | error e =>
      simp only [reduceSeq, he] at hred
      exact Except.noConfusion hred
    | ok pr =>
      obtain ⟨v, w⟩ := pr
      simp only [reduceSeq, he] at hred
      cases hp : push_value w v with
      | error e =>
        simp only [hp] at hred
        exact Except.noConfusion hred
      | ok w' =>
        simp only [hp] at hred
        simp only [hp]
        exact ih hrest hred

theorem drain_eq_reduceSeq {ops : List Token} {vals : List D}
    (h : ∀ t ∈ ops, t.type ≠ TokenType.LEFT_PAREN) :
    drain ops vals = reduceSeq ops vals := by
  induction ops generalizing vals with
  | nil => rfl
  | cons op rest ih =>
    have hop := h op (List.mem_cons_self _ _)
    have hrest : ∀ t ∈ rest, t.type ≠ TokenType.LEFT_PAREN :=
      fun t ht => h t (List.mem_cons_of_mem _ ht)
    simp only [drain, reduceSeq]
    rw [if_neg hop]
    cases he : evaluate op vals with
    | error e => simp only [he]
    | ok pr =>
      obtain ⟨v, w⟩ := pr
      cases hp : push_value w v with
      | error e => simp only [he, hp]
      | ok w' =>
        simp only [he, hp]
        exact ih hrest

theorem mainLoop_num_ok {t : Token} {ts ops : List Token} {vals vals' : List D}
    (h : t.type = TokenType.NUMBER)
    (hp : push_value vals (D.fin t.literal) = Except.ok vals') :
    mainLoop (t :: ts) ops vals = mainLoop ts ops vals' := by
  simp only [mainLoop]
  rw [if_pos h]
  simp only [hp]

theorem mainLoop_op_ok {t : Token} {ts ops ops₁ ops₂ : List Token} {vals vals₁ : List D}
    (h : 0 < TOKEN_TYPE_PRECEDENCE t.type)
    (hloop : opLoop (TOKEN_TYPE_PRECEDENCE t.type) ops vals = Except.ok (ops₁, vals₁))
    (hpush : push_operator ops₁ t = Except.ok ops₂) :
    mainLoop (t :: ts) ops vals = mainLoop ts ops₂ vals₁ := by
  have hnum : ¬(t.type = TokenType.NUMBER) := by
    intro hh
    rw [hh] at h
    simp [TOKEN_TYPE_PRECEDENCE] at h
  simp only [mainLoop]
  rw [if_neg hnum, if_pos h, hloop]
  simp only [hpush]

theorem mainLoop_lparen_ok {t : Token} {ts ops ops' : List Token} {vals : List D}
    (h : t.type = TokenType.LEFT_PAREN) (hpush : push_operator ops t = Except.ok ops') :
    mainLoop (t :: ts) ops vals = mainLoop ts ops' vals := by
  simp only [mainLoop]
  rw [if_neg (by simp [h]), if_neg (by simp [h, TOKEN_TYPE_PRECEDENCE]), if_pos h]
  simp only [hpush]

theorem mainLoop_rparen_ok {t : Token} {ts ops rest' : List Token} {lp : Token}
    {vals vals' : List D} (h : t.type = TokenType.RIGHT_PAREN)
    (hloop : rparenLoop ops vals = Except.ok (lp :: rest', vals')) :
    mainLoop (t :: ts) ops vals = mainLoop ts rest' vals' := by
  simp only [mainLoop]
  rw [if_neg (by simp [h]), if_neg (by simp [h, TOKEN_TYPE_PRECEDENCE]),
    if_neg (by simp [h]), if_pos h]
  simp only [hloop]

theorem mainLoop_rparen_empty {t : Token} {ts ops : List Token} {vals vals' : List D}
    (h : t.type = TokenType.RIGHT_PAREN)
    (hloop : rparenLoop ops vals = Except.ok ([], vals')) :
    mainLoop (t :: ts) ops vals = Except.error (Err.mismatchedRight t.start_at) := by
  simp only [mainLoop]
  rw [if_neg (by simp [h]), if_neg (by simp [h, TOKEN_TYPE_PRECEDENCE]),
    if_neg (by simp [h]), if_pos h]
  simp only [hloop]

theorem evaluate_uminus {u : Token} (hu : u.type = TokenType.UMINUS) (v : D)
    (vals : List D) : evaluate u (v :: vals) = Except.ok (D.neg v, vals) := by
  simp [evaluate, pop_value, hu]

theorem evaluate_plus {t : Token} (h : t.type = TokenType.PLUS) (a b : D)
    (vals : List D) : evaluate t (b :: a :: vals) = Except.ok (D.add a b, vals) := by
  simp only [evaluate, pop_value, h]
  rfl

theorem evaluate_minus {t : Token} (h : t.type = TokenType.MINUS) (a b : D)
    (vals : List D) : evaluate t (b :: a :: vals) = Except.ok (D.sub a b, vals) := by
  simp only [evaluate, pop_value, h]
  rfl

theorem evaluate_star {t : Token} (h : t.type = TokenType.STAR) (a b : D)
    (vals : List D) : evaluate t (b :: a :: vals) = Except.ok (D.mul a b, vals) := by
  simp only [evaluate, pop_value, h]
  rfl

theorem evaluate_slash {t : Token} (h : t.type = TokenType.SLASH) (a b : D)
    (vals : List D) : evaluate t (b :: a :: vals) = Except.ok (D.div a b, vals) := by
  simp only [evaluate, pop_value, h]
  rfl

theorem reduceSeq_one {op : Token} {vals vals' : List D} {v : D}
    (he : evaluate op vals = Except.ok (v, vals'))
    (hcap : vals'.length < STACK_SIZE) :
    reduceSeq [op] vals = Except.ok (v :: vals') := by
  simp only [reduceSeq, he, push_value_ok hcap]

/-- Shunting-yard processing of a well-formed phrase.  Starting from an
operator stack that is ready for a level-`lvl` phrase (`Stop`), with both
stacks small enough that the phrase cannot overflow the 1024-slot
capacity, consuming the phrase's tokens leaves the surrounding state
intact underneath the phrase's pending operators `pend` and partial
values `pvals`, and reducing `pend` against `pvals` always succeeds and
yields exactly one value. -/
theorem G_process :
    ∀ {lvl : Nat} {ts : List Token}, G lvl ts →
    ∀ (rest ops : List Token) (vals : List D),
      Stop (plevel lvl) ops →
      ops.length + ts.length ≤ STACK_SIZE →
      vals.length + ts.length ≤ STACK_SIZE →
      ∃ (pend : List Token) (pvals : List D),
        mainLoop (ts ++ rest) ops vals = mainLoop rest (pend ++ ops) (pvals ++ vals) ∧
        PendOk (plevel lvl) pend ∧
        pend.length ≤ ts.length ∧
        pvals.length ≤ ts.length ∧
        (∀ vals'' : List D, pvals.length + vals''.length ≤ STACK_SIZE →
          ∃ v : D, reduceSeq pend (pvals ++ vals'') = Except.ok (v :: vals'')) := by
  intro lvl ts hG
  induction hG with
  | @num t ht =>
    intro rest ops vals hstop hops hvals
    simp only [List.length_singleton] at hops hvals
    have hpush : push_value vals (D.fin t.literal) = Except.ok (D.fin t.literal :: vals) :=
      push_value_ok (by omega)
    refine ⟨[], [D.fin t.literal], ?_, ?_, by simp, by simp, ?_⟩
    · rw [List.singleton_append, mainLoop_num_ok ht hpush]
      simp
    · exact fun t' ht' => absurd ht' (List.not_mem_nil _)
    · intro vals'' hlen
      exact ⟨D.fin t.literal, by simp [reduceSeq]⟩
  | @paren lp rp ts' hin hlp hrp ih =>
    intro rest ops vals hstop hops hvals
    simp only [List.length_cons, List.length_append, List.length_singleton] at hops hvals
    have hpushlp : push_operator ops lp = Except.ok (lp :: ops) :=
      push_operator_ok (by omega)
    rw [show (lp :: ts' ++ [rp]) ++ rest = lp :: (ts' ++ ([rp] ++ rest)) by simp]
    rw [mainLoop_lparen_ok hlp hpushlp]
    obtain ⟨pend, pvals, heq, hpok, hpl, hpv, hred⟩ :=
      ih ([rp] ++ rest) (lp :: ops) vals (Or.inl hlp) (by simp; omega) (by omega)
    rw [heq]
    obtain ⟨v, hv⟩ := hred vals (by omega)
    have hrloop : rparenLoop (pend ++ lp :: ops) (pvals ++ vals) =
        Except.ok (lp :: ops, v :: vals) :=
      rparenLoop_pend_ok (fun t ht => (hpok t ht).1) (Or.inr ⟨lp, ops, rfl, hlp⟩) hv
    rw [show [rp] ++ rest = rp :: rest from rfl]
    rw [mainLoop_rparen_ok hrp hrloop]
    refine ⟨[], [v], by simp, ?_, by simp, by simp, ?_⟩
    · exact fun t' ht' => absurd ht' (List.not_mem_nil _)
    · intro vals'' hlen
      exact ⟨v, by simp [reduceSeq]⟩
  | @atom_fact ts' hin ih =>
    intro rest ops vals hstop hops hvals
    obtain ⟨pend, pvals, heq, hpok, hpl, hpv, hred⟩ :=
      ih rest ops vals (Stop_mono (by decide) hstop) hops hvals
    exact ⟨pend, pvals, heq, PendOk_mono (by decide) hpok, hpl, hpv, hred⟩
  | @neg u ts' hu hin ih =>
    intro rest ops vals hstop hops hvals
    simp only [List.length_cons] at hops hvals
    have hprec : TOKEN_TYPE_PRECEDENCE u.type = 4 := by rw [hu]; rfl
    have h1t := G_length hin
    rw [show (u :: ts') ++ rest = u :: (ts' ++ rest) by simp]
    have hpush : push_operator ops u = Except.ok (u :: ops) := push_operator_ok (by omega)
    have hloop : opLoop (TOKEN_TYPE_PRECEDENCE u.type) ops vals = Except.ok (ops, vals) := by
      rw [hprec]
      exact opLoop_stop hstop
    rw [mainLoop_op_ok (by rw [hprec]; decide) hloop hpush]
    obtain ⟨pend0, pvals0, heq, hpok, hpl, hpv, hred⟩ :=
      ih rest (u :: ops) vals (Or.inr (by rw [hprec]; decide)) (by simp; omega) (by omega)
    rw [heq]
    have hpnil : pend0 = [] := by
      cases pend0 with
      | nil => rfl
      | cons t r =>
        have h4 := prec_le_four t.type
        have h5 := (hpok t (List.mem_cons_self _ _)).2
        have h6 : plevel 0 = 5 := rfl
        rw [h6] at h5
        omega
    subst hpnil
    obtain ⟨v, hv⟩ := hred [] (by simp only [List.length_nil]; omega)
    simp only [reduceSeq, List.append_nil, Except.ok.injEq] at hv
    subst hv
    refine ⟨[u], [v], by simp, ?_, by simp, by simp, ?_⟩
    · intro t' ht'
      have ht'' : t' = u := by simpa using ht'
      subst ht''
      refine ⟨by rw [hu]; decide, ?_⟩
      have h6 : plevel 1 = 4 := rfl
      rw [h6, hprec]
    · intro vals'' hlen
      simp only [List.length_singleton] at hlen
      refine ⟨D.neg v, ?_⟩
      rw [List.singleton_append]
      exact reduceSeq_one (evaluate_uminus hu v vals'') (by omega)
  | @fact_term ts' hin ih =>
    intro rest ops vals hstop hops hvals
    obtain ⟨pend, pvals, heq, hpok, hpl, hpv, hred⟩ :=
      ih rest ops vals (Stop_mono (by decide) hstop) hops hvals
    exact ⟨pend, pvals, heq, PendOk_mono (by decide) hpok, hpl, hpv, hred⟩
  | @mul op t1 t2 h1 hop h2 ih1 ih2 =>
    intro rest ops vals hstop hops hvals
    simp only [List.length_append, List.length_cons] at hops hvals
    have hprec : TOKEN_TYPE_PRECEDENCE op.type = 3 := by
      rcases hop with h | h <;> rw [h] <;> rfl
    have hl1 := G_length h1
    have hl2 := G_length h2
    rw [show (t1 ++ op :: t2) ++ rest = t1 ++ (op :: (t2 ++ rest)) by simp]
    obtain ⟨p1, w1, heq1, hok1, hpl1, hpv1, hred1⟩ :=
      ih1 (op :: (t2 ++ rest)) ops vals hstop (by omega) (by omega)
    rw [heq1]
    obtain ⟨v1, hv1⟩ := hred1 vals (by omega)
    have hloop : opLoop (TOKEN_TYPE_PRECEDENCE op.type) (p1 ++ ops) (w1 ++ vals) =
        Except.ok (ops, v1 :: vals) := by
      rw [hprec]
      exact opLoop_pend_ok hok1 hstop hv1
    have hpush : push_operator ops op = Except.ok (op :: ops) := push_operator_ok (by omega)
    rw [mainLoop_op_ok (by rw [hprec]; decide) hloop hpush]
    obtain ⟨p2, w2, heq2, hok2, hpl2, hpv2, hred2⟩ :=
      ih2 rest (op :: ops) (v1 :: vals) (Or.inr (by rw [hprec]; decide))
        (by simp; omega) (by simp; omega)
    rw [heq2]
    refine ⟨p2 ++ [op], w2 ++ [v1], ?_, ?_, ?_, ?_, ?_⟩
    · simp [List.append_assoc]
    · intro t' ht'
      rcases List.mem_append.mp ht' with hmem | hmem
      · obtain ⟨hnp, hge⟩ := hok2 t' hmem
        refine ⟨hnp, ?_⟩
        have h5 : plevel 1 = 4 := rfl
        have h6 : plevel 2 = 3 := rfl
        rw [h5] at hge
        rw [h6]
        omega
      · have ht'' : t' = op := by simpa using hmem
        subst ht''
        refine ⟨by rcases hop with h | h <;> rw [h] <;> decide, ?_⟩
        have h6 : plevel 2 = 3 := rfl
        rw [h6, hprec]
    · simp
      omega
    · simp
      omega
    · intro vals'' hlen
      simp only [List.length_append, List.length_singleton] at hlen
      rw [show (w2 ++ [v1]) ++ vals'' = w2 ++ (v1 :: vals'') by simp]
      obtain ⟨v2, hv2⟩ := hred2 (v1 :: vals'') (by simp; omega)
      rw [reduceSeq_append_ok hv2]
      rcases hop with h | h
      · exact ⟨D.mul v1 v2, reduceSeq_one (evaluate_star h v1 v2 vals'') (by omega)⟩
      · exact ⟨D.div v1 v2, reduceSeq_one (evaluate_slash h v1 v2 vals'') (by omega)⟩
  | @term_expr ts' hin ih =>
    intro rest ops vals hstop hops hvals
    obtain ⟨pend, pvals, heq, hpok, hpl, hpv, hred⟩ :=
      ih rest ops vals (Stop_mono (by decide) hstop) hops hvals
    exact ⟨pend, pvals, heq, PendOk_mono (by decide) hpok, hpl, hpv, hred⟩
  | @add op t1 t2 h1 hop h2 ih1 ih2 =>
    intro rest ops vals hstop hops hvals
    simp only [List.length_append, List.length_cons] at hops hvals
    have hprec : TOKEN_TYPE_PRECEDENCE op.type = 2 := by
      rcases hop with h | h <;> rw [h] <;> rfl
    have hl1 := G_length h1
    have hl2 := G_length h2
    rw [show (t1 ++ op :: t2) ++ rest = t1 ++ (op :: (t2 ++ rest)) by simp]
    obtain ⟨p1, w1, heq1, hok1, hpl1, hpv1, hred1⟩ :=
      ih1 (op :: (t2 ++ rest)) ops vals hstop (by omega) (by omega)
    rw [heq1]
    obtain ⟨v1, hv1⟩ := hred1 vals (by omega)
    have hloop : opLoop (TOKEN_TYPE_PRECEDENCE op.type) (p1 ++ ops) (w1 ++ vals) =
        Except.ok (ops, v1 :: vals) := by
      rw [hprec]
      exact opLoop_pend_ok hok1 hstop hv1
    have hpush : push_operator ops op = Except.ok (op :: ops) := push_operator_ok (by omega)
    rw [mainLoop_op_ok (by rw [hprec]; decide) hloop hpush]
    obtain ⟨p2, w2, heq2, hok2, hpl2, hpv2, hred2⟩ :=
      ih2 rest (op :: ops) (v1 :: vals) (Or.inr (by rw [hprec]; decide))
        (by simp; omega) (by simp; omega)
    rw [heq2]
    refine ⟨p2 ++ [op], w2 ++ [v1], ?_, ?_, ?_, ?_, ?_⟩
    · simp [List.append_assoc]
    · intro t' ht'
      rcases List.mem_append.mp ht' with hmem | hmem
      · obtain ⟨hnp, hge⟩ := hok2 t' hmem
        refine ⟨hnp, ?_⟩
        have h5 : plevel 2 = 3 := rfl
        have h6 : plevel 3 = 2 := rfl
        rw [h5] at hge
        rw [h6]
        omega
      · have ht'' : t' = op := by simpa using hmem
        subst ht''
        refine ⟨by rcases hop with h | h <;> rw [h] <;> decide, ?_⟩
        have h6 : plevel 3 = 2 := rfl
        rw [h6, hprec]
    · simp
      omega
    · simp
      omega
    · intro vals'' hlen
      simp only [List.length_append, List.length_singleton] at hlen
      rw [show (w2 ++ [v1]) ++ vals'' = w2 ++ (v1 :: vals'') by simp]
      obtain ⟨v2, hv2⟩ := hred2 (v1 :: vals'') (by simp; omega)
      rw [reduceSeq_append_ok hv2]
      rcases hop with h | h
      · exact ⟨D.add v1 v2, reduceSeq_one (evaluate_plus h v1 v2 vals'') (by omega)⟩
      · exact ⟨D.sub v1 v2, reduceSeq_one (evaluate_minus h v1 v2 vals'') (by omega)⟩

theorem mainLoop_lparen_err {t : Token} {ts ops : List Token} {vals : List D} {e : Err}
    (h : t.type = TokenType.LEFT_PAREN) (hpush : push_operator ops t = Except.error e) :
    mainLoop (t :: ts) ops vals = Except.error e := by
  simp only [mainLoop]
  rw [if_neg (by simp [h]), if_neg (by simp [h, TOKEN_TYPE_PRECEDENCE]), if_pos h]
  simp only [hpush]

/-- Evaluating a well-formed expression of at most `STACK_SIZE` tokens:
the token loop succeeds, draining the operator stack succeeds and leaves
exactly one value, and the whole evaluation returns it. -/
theorem eval_wf_ok {ts : List Token} (h : G 3 ts) (hlen : ts.length ≤ STACK_SIZE) :
    ∃ (v : D) (pend : List Token) (pvals : List D),
      mainLoop ts [] [] = Except.ok (pend, pvals) ∧
      drain pend pvals = Except.ok [v] ∧
      eval_by_shunting_yard ts = Except.ok v := by
  obtain ⟨pend, pvals, heq, hpok, hpl, hpv, hred⟩ :=
    G_process h [] [] [] trivial (by simpa using hlen) (by simpa using hlen)
  obtain ⟨v, hv⟩ := hred [] (by simp only [List.length_nil]; omega)
  rw [List.append_nil] at hv
  have hmain : mainLoop ts [] [] = Except.ok (pend, pvals) := by
    simpa using heq
  have hdr : drain pend pvals = Except.ok [v] := by
    rw [drain_eq_reduceSeq (fun t ht => (hpok t ht).1)]
    exact hv
  refine ⟨v, pend, pvals, hmain, hdr, ?_⟩
  simp only [eval_by_shunting_yard, hmain, hdr]

/-- Pushing more LeftParens than the operator stack can hold overflows. -/
theorem mainLoop_replicate_lparen_overflow :
    ∀ (n : Nat) (ops : List Token) (vals : List D) (rest : List Token),
      STACK_SIZE < ops.length + n → ops.length ≤ STACK_SIZE →
      mainLoop (List.replicate n lpTok ++ rest) ops vals =
        Except.error Err.operatorsOverflow := by
  intro n
  induction n with
  | zero =>
    intro ops vals rest h1 h2
    omega
  | succ n ih =>
    intro ops vals rest h1 h2
    rw [List.replicate_succ, List.cons_append]
    by_cases hfull : ops.length < STACK_SIZE
    · have hpush : push_operator ops lpTok = Except.ok (lpTok :: ops) :=
        push_operator_ok hfull
      rw [mainLoop_lparen_ok rfl hpush]
      exact ih (lpTok :: ops) vals rest (by simp; omega) (by simp; omega)
    · have hpushf : push_operator ops lpTok = Except.error Err.operatorsOverflow := by
        simp only [push_operator]
        rw [if_pos (by omega)]
      exact mainLoop_lparen_err rfl hpushf

/-- Every depth of nesting of a number in parentheses is well-formed. -/
theorem G_nest :
    ∀ n : Nat, G 3 (List.replicate n lpTok ++ [oneTok] ++ List.replicate n rpTok) := by
  intro n
  induction n with
  | zero => simpa using G.term_expr (G.fact_term (G.atom_fact (G.num rfl)))
  | succ n ih =>
    have h0 : G 0 (lpTok :: (List.replicate n lpTok ++ [oneTok] ++ List.replicate n rpTok)
        ++ [rpTok]) := G.paren ih rfl rfl
    have heq : List.replicate (n + 1) lpTok ++ [oneTok] ++ List.replicate (n + 1) rpTok
        = lpTok :: (List.replicate n lpTok ++ [oneTok] ++ List.replicate n rpTok)
          ++ [rpTok] := by
      rw [List.replicate_succ, List.replicate_succ']
      simp [List.append_assoc]
    rw [heq]
    exact G.term_expr (G.fact_term (G.atom_fact h0))

/-- Scanning input consisting only of spaces emits no tokens. -/
theorem scan_go_spaces {s : List Char} (hsp : ∀ c ∈ s, c = ' ') :
    ∀ (fuel cur : Nat) (tokens : List Token),
      scan_go s fuel cur tokens = Except.ok tokens := by
  intro fuel
  induction fuel with
  | zero => intro cur tokens; rfl
  | succ fuel ih =>
    intro cur tokens
    by_cases hend : charAt s cur = NUL ∨ charAt s cur = '\n'
    · simp only [scan_go]
      rw [if_pos hend]
    · have hlt : cur < s.length := lt_length_of_charAt_ne_nul (fun hc => hend (Or.inl hc))
      have hc : charAt s cur = ' ' := by
        rw [charAt_eq_getElem hlt]
        exact hsp _ (List.getElem_mem _)
      have hscan : scan_token s cur tokens = Except.ok (tokens, cur + 1) := by
        simp [scan_token, hc]
      simp only [scan_go]
      rw [if_neg hend]
      simp only [hscan]
      exact ih (cur + 1) tokens

/-- Every token emitted by one `scanner_scan_token` step satisfies the
span invariant. -/
theorem scan_token_preserves {s : List Char} {cur : Nat} {tokens tokens' : List Token}
    {cur' : Nat} (hg : ¬(charAt s cur = NUL ∨ charAt s cur = '\n'))
    (h : scan_token s cur tokens = Except.ok (tokens', cur')) :
    ∀ t ∈ tokens', t ∈ tokens ∨ TokenOK s t := by
  have hlt : cur < s.length := lt_length_of_charAt_ne_nul (fun hc => hg (Or.inl hc))
  rcases scan_token_cases s cur tokens with ⟨ty, hty, he⟩ | ⟨hsp, he⟩ | ⟨hdig, he⟩ | ⟨e, he⟩ <;>
    rw [he] at h
  · obtain ⟨h1, -⟩ := Prod.mk.injEq .. ▸ Except.ok.inj h
    subst h1
    intro t ht
    rcases List.mem_append.mp ht with hmem | hmem
    · exact Or.inl hmem
    · right
      have ht' : t = ⟨ty, 0, cur, cur⟩ := by simpa using hmem
      subst ht'
      exact ⟨le_refl _, hlt, fun _ => rfl, fun hty' => absurd hty' hty⟩
  · obtain ⟨h1, -⟩ := Prod.mk.injEq .. ▸ Except.ok.inj h
    subst h1
    intro t ht
    exact Or.inl ht
  · obtain ⟨h1, -⟩ := Prod.mk.injEq .. ▸ Except.ok.inj h
    subst h1
    intro t ht
    rcases List.mem_append.mp ht with hmem | hmem
    · exact Or.inl hmem
    · right
      have ht' : t = ⟨TokenType.NUMBER, numberLiteral s cur, cur, numberEnd s cur - 1⟩ := by
        simpa using hmem
      subst ht'
      have hge := le_numberEnd s cur
      refine ⟨?_, ?_, ?_, ?_⟩
      · show cur ≤ numberEnd s cur - 1
        omega
      · exact numberEnd_sub_one_lt hdig
      · intro hne
        exact absurd rfl hne
      · intro _
        refine ⟨hdig, ?_⟩
        show numberEnd s cur - 1 + 1 = numberEnd s cur
        omega
  · cases h

/-- The span invariant propagates through the whole scanner loop. -/
theorem scan_go_preserves {s : List Char} :
    ∀ (fuel cur : Nat) (tokens ts : List Token),
      scan_go s fuel cur tokens = Except.ok ts →
      (∀ t ∈ tokens, TokenOK s t) → ∀ t ∈ ts, TokenOK s t := by
  intro fuel
  induction fuel with
  | zero =>
    intro cur tokens ts h hall
    obtain rfl := Except.ok.inj h
    exact hall
  | succ fuel ih =>
    intro cur tokens ts h hall
    by_cases hend : charAt s cur = NUL ∨ charAt s cur = '\n'
    · simp only [scan_go] at h
      rw [if_pos hend] at h
      obtain rfl := Except.ok.inj h
      exact hall
    · simp only [scan_go] at h
      rw [if_neg hend] at h
      cases hscan : scan_token s cur tokens with
      | error e =>
        simp only [hscan] at h
        exact Except.noConfusion h
      | ok pr =>
        obtain ⟨tokens₂, cur₂⟩ := pr
        simp only [hscan] at h
        exact ih cur₂ tokens₂ ts h (fun t ht =>
          (scan_token_preserves hend hscan t ht).elim (hall t) id)

theorem lex_tokens_ok {str : String} {ts : List Token}
    (h : lexString str = Except.ok ts) : ∀ t ∈ ts, TokenOK str.toList t :=
  scan_go_preserves _ 0 [] ts h (fun t ht => absurd ht (List.not_mem_nil _))

/-- The Boolean test of the `-` branch holds exactly when there is no
previous token, or the previous token is neither a Number nor a
RightParen. -/
theorem prevAllowsUnary_iff (tokens : List Token) :
    prevAllowsUnary tokens = true ↔
      (tokens = [] ∨ ∃ t, tokens.getLast? = some t ∧
        t.type ≠ TokenType.NUMBER ∧ t.type ≠ TokenType.RIGHT_PAREN) := by
  simp only [prevAllowsUnary]
  cases hl : tokens.getLast? with
  | none =>
    constructor
    · intro _
      exact Or.inl (List.getLast?_eq_none_iff.mp hl)
    · intro _
      rfl
  | some t =>
    simp only [Bool.and_eq_true, decide_eq_true_eq]
    constructor
    · rintro ⟨ha, hb⟩
      exact Or.inr ⟨t, rfl, ha, hb⟩
    · rintro (rfl | ⟨t', ht', ha, hb⟩)
      · simp at hl
      · obtain rfl := Option.some.inj ht'
        exact ⟨ha, hb⟩

/-- The `-` branch of `scanner_scan_token`. -/
theorem scan_token_minus {s : List Char} {cur : Nat} {tokens : List Token}
    (h : charAt s cur = '-') :
    scan_token s cur tokens = Except.ok
      (tokens ++ [⟨if prevAllowsUnary tokens then TokenType.UMINUS else TokenType.MINUS,
        0, cur, cur⟩], cur + 1) := by
  by_cases hp : prevAllowsUnary tokens <;> simp [scan_token, h, hp]

/-! ## Claim theorems -/

/-- C1 (refuted by the code, code bug): the claim says every Number
token's literal equals the standard decimal parse of the characters in
its span, for literals of every length.  The code instead parses only the
first two characters of the literal (`scanner_number` recomputes `end_at`
as `start_at + 1` instead of `token->end_at`): lexing `"100"` emits value
`10` with span `[0,2]` although the decimal parse of `"100"` is `100`,
and lexing `"3.5"` emits value `3` although its decimal parse is `3.5`. -/
theorem C1_literal_truncated :
    lexString "100" = Except.ok [⟨TokenType.NUMBER, 10, 0, 2⟩] ∧
    decimalParse "100".toList = 100 ∧
    lexString "3.5" = Except.ok [⟨TokenType.NUMBER, 3, 0, 2⟩] ∧
    decimalParse "3.5".toList = 7 / 2 ∧
    (10 : ℚ) ≠ 100 ∧ (3 : ℚ) ≠ 7 / 2 := by
  refine ⟨?_, ?_, ?_, ?_, ?_, ?_⟩
  · with_unfolding_all rfl
  · with_unfolding_all rfl
  · with_unfolding_all rfl
  · with_unfolding_all rfl
  · norm_num
  · norm_num

/-- C2 (confirmed): an operator token of precedence `p` first pops and
reduces the maximal run of stack operators that are not LeftParen and
have precedence at least `p`, then is pushed; consequently `"8 - 3 - 2"`
evaluates to `3` (left-associative), `"2 + 3 * 4"` to `14`, and
`"(2 + 3) * 4"` to `20`. -/
theorem C2_operator_reduction :
    (∀ (p : Nat) (ops : List Token) (vals : List D),
        opLoop p ops vals =
          match reduceSeq (ops.takeWhile (popCond p)) vals with
          | .error e => .error e
          | .ok vals' => .ok (ops.dropWhile (popCond p), vals')) ∧
    (∀ (t : Token) (ts ops : List Token) (vals : List D),
        0 < TOKEN_TYPE_PRECEDENCE t.type →
        mainLoop (t :: ts) ops vals =
          match opLoop (TOKEN_TYPE_PRECEDENCE t.type) ops vals with
          | .error e => .error e
          | .ok (ops₁, vals₁) =>
            match push_operator ops₁ t with
            | .error e => .error e
            | .ok ops₂ => mainLoop ts ops₂ vals₁) ∧
    evalString "8 - 3 - 2" = Except.ok (D.fin 3) ∧
    evalString "2 + 3 * 4" = Except.ok (D.fin 14) ∧
    evalString "(2 + 3) * 4" = Except.ok (D.fin 20) := by
  refine ⟨?_, ?_, ?_, ?_, ?_⟩
  · intro p ops
    induction ops with
    | nil =>
      intro vals
      simp [opLoop, reduceSeq]
    | cons top rest ih =>
      intro vals
      by_cases hc : popCond p top
      · have hcp : top.type ≠ TokenType.LEFT_PAREN ∧
            p ≤ TOKEN_TYPE_PRECEDENCE top.type := by
          simpa [popCond, decide_eq_true_eq] using hc
        rw [List.takeWhile_cons_of_pos hc, List.dropWhile_cons_of_pos hc]
        simp only [opLoop, reduceSeq]
        rw [if_pos hcp]
        cases he : evaluate top vals with
        | error e => simp only [he]
        | ok pr =>
          obtain ⟨v, w⟩ := pr
          simp only [he]
          cases hp : push_value w v with
          | error e => simp only [hp]
          | ok w' =>
            simp only [hp]
            exact ih w'
      · have hcn : ¬(top.type ≠ TokenType.LEFT_PAREN ∧
            p ≤ TOKEN_TYPE_PRECEDENCE top.type) := by
          simpa [popCond, decide_eq_true_eq] using hc
        rw [List.takeWhile_cons_of_neg (by simpa using hc),
          List.dropWhile_cons_of_neg (by simpa using hc)]
        simp only [opLoop, reduceSeq]
        rw [if_neg hcn]
  · intro t ts ops vals h
    have hnum : ¬(t.type = TokenType.NUMBER) := by
      intro hh
      rw [hh] at h
      simp [TOKEN_TYPE_PRECEDENCE] at h
    simp only [mainLoop]
    rw [if_neg hnum, if_pos h]
  · with_unfolding_all rfl
  · with_unfolding_all rfl
  · with_unfolding_all rfl

/-- Witness for C2 at a concrete input: the `+` token with empty stacks. -/
theorem C2_witness :
    mainLoop [⟨TokenType.PLUS, 0, 0, 0⟩] [] [] =
      match opLoop (TOKEN_TYPE_PRECEDENCE (⟨TokenType.PLUS, 0, 0, 0⟩ : Token).type) [] []
        with
      | .error e => .error e
      | .ok (ops₁, vals₁) =>
        match push_operator ops₁ ⟨TokenType.PLUS, 0, 0, 0⟩ with
        | .error e => .error e
        | .ok ops₂ => mainLoop [] ops₂ vals₁ :=
  C2_operator_reduction.2.1 ⟨TokenType.PLUS, 0, 0, 0⟩ [] [] [] (by decide)

/-- C3 (confirmed): a scanned `-` is emitted as UnaryMinus exactly when
there is no previously emitted token or the last emitted token is neither
a Number nor a RightParen, and as Subtract otherwise; consequently
`"-5 + 3"` evaluates to `-2`, `"3 - -5"` to `8`, `"(-5)"` to `-5`, and
`"3-5"` to `-2`. -/
theorem C3_minus_classification :
    (∀ (s : List Char) (cur : Nat) (tokens : List Token),
        charAt s cur = '-' →
        scan_token s cur tokens = Except.ok
          (tokens ++ [⟨if prevAllowsUnary tokens then TokenType.UMINUS
            else TokenType.MINUS, 0, cur, cur⟩], cur + 1) ∧
        (prevAllowsUnary tokens = true ↔
          (tokens = [] ∨ ∃ t, tokens.getLast? = some t ∧
            t.type ≠ TokenType.NUMBER ∧ t.type ≠ TokenType.RIGHT_PAREN))) ∧
    evalString "-5 + 3" = Except.ok (D.fin (-2)) ∧
    evalString "3 - -5" = Except.ok (D.fin 8) ∧
    evalString "(-5)" = Except.ok (D.fin (-5)) ∧
    evalString "3-5" = Except.ok (D.fin (-2)) := by
  refine ⟨?_, ?_, ?_, ?_, ?_⟩
  · intro s cur tokens h
    exact ⟨scan_token_minus h, prevAllowsUnary_iff tokens⟩
  · with_unfolding_all rfl
  · with_unfolding_all rfl
  · with_unfolding_all rfl
  · with_unfolding_all rfl

/-- Witness for C3: a lone `-` with no previous token. -/
theorem C3_witness :
    scan_token ['-'] 0 [] = Except.ok
      ([⟨if prevAllowsUnary [] then TokenType.UMINUS else TokenType.MINUS, 0, 0, 0⟩], 1) ∧
    (prevAllowsUnary ([] : List Token) = true ↔
      (([] : List Token) = [] ∨ ∃ t, ([] : List Token).getLast? = some t ∧
        t.type ≠ TokenType.NUMBER ∧ t.type ≠ TokenType.RIGHT_PAREN)) :=
  C3_minus_classification.1 ['-'] 0 [] (by decide)

/-- C4 (confirmed): a RightParen that empties the operator stack without
finding a LeftParen fails with the mismatched-right-paren error at the
RightParen's position (`"(1 + 2))"` fails at offset 7), and a LeftParen
still on the stack after the stream is exhausted fails with the
mismatched-left-paren error at the LeftParen's position (`"((1 + 2)"`
fails at offset 0). -/
theorem C4_mismatched_parens :
    evalString "(1 + 2))" = Except.error (Err.mismatchedRight 7) ∧
    evalString "((1 + 2)" = Except.error (Err.mismatchedLeft 0) ∧
    (∀ (t : Token) (ts ops : List Token) (vals vals' : List D),
        t.type = TokenType.RIGHT_PAREN → rparenLoop ops vals = Except.ok ([], vals') →
        mainLoop (t :: ts) ops vals = Except.error (Err.mismatchedRight t.start_at)) ∧
    (∀ (op : Token) (rest : List Token) (vals : List D),
        op.type = TokenType.LEFT_PAREN →
        drain (op :: rest) vals = Except.error (Err.mismatchedLeft op.start_at)) := by
  refine ⟨by with_unfolding_all rfl, by with_unfolding_all rfl, ?_, ?_⟩
  · intro t ts ops vals vals' h hloop
    exact mainLoop_rparen_empty h hloop
  · intro op rest vals h
    simp only [drain]
    rw [if_pos h]

/-- Witness for C4: a lone RightParen, and a drained LeftParen. -/
theorem C4_witness :
    mainLoop [rpTok] [] [] = Except.error (Err.mismatchedRight rpTok.start_at) ∧
    drain [lpTok] [] = Except.error (Err.mismatchedLeft lpTok.start_at) :=
  ⟨C4_mismatched_parens.2.2.1 rpTok [] [] [] [] rfl rfl,
   C4_mismatched_parens.2.2.2 lpTok [] [] rfl⟩

/-- Counterexample to C5 as stated: `deepParens` is a well-formed,
fully balanced expression (a number under 1025 nested parentheses), yet
evaluation does not return a result — it fails with the operator-stack
overflow error, because the reference stacks hold only 1024 slots. -/
theorem C5_counterexample :
    G 3 deepParens ∧
    eval_by_shunting_yard deepParens = Except.error Err.operatorsOverflow := by
  constructor
  · exact G_nest 1025
  · have hm : mainLoop deepParens [] [] = Except.error Err.operatorsOverflow := by
      have h := mainLoop_replicate_lparen_overflow 1025 [] []
        ([oneTok] ++ List.replicate 1025 rpTok) (by decide) (by decide)
      unfold deepParens
      rw [List.append_assoc]
      exact h
    simp only [eval_by_shunting_yard, hm]

/-- C5 (amended): for every well-formed expression with balanced
parentheses of at most `STACK_SIZE` (1024) tokens — so that the fixed
1024-slot stacks cannot overflow — evaluation terminates and returns
exactly one numeric result: the token loop succeeds, draining the
operator stack consumes it completely and leaves exactly one value on the
value stack, and the evaluator returns that value (popping it, so both
stacks end empty). -/
theorem C5_wf_bounded_eval (ts : List Token) (hwf : G 3 ts)
    (hlen : ts.length ≤ STACK_SIZE) :
    ∃ (v : D) (pend : List Token) (pvals : List D),
      mainLoop ts [] [] = Except.ok (pend, pvals) ∧
      drain pend pvals = Except.ok [v] ∧
      eval_by_shunting_yard ts = Except.ok v :=
  eval_wf_ok hwf hlen

/-- Witness for C5 at the one-token expression `1`. -/
theorem C5_witness :
    ∃ (v : D) (pend : List Token) (pvals : List D),
      mainLoop [oneTok] [] [] = Except.ok (pend, pvals) ∧
      drain pend pvals = Except.ok [v] ∧
      eval_by_shunting_yard [oneTok] = Except.ok v :=
  C5_wf_bounded_eval [oneTok] (G.term_expr (G.fact_term (G.atom_fact (G.num rfl))))
    (by decide)

/-- C6 (confirmed): a `.` is consumed into a number literal only between
digits: `"3."` fails with the unexpected-character error on the lone dot
at offset 1, `".5"` fails the same way at offset 0, `"3.5"` lexes to a
single Number token; in general a consumed literal always ends in a
digit, never in the dot. -/
theorem C6_dot_rule :
    lexString "3." = Except.error (Err.parsing '.' 1) ∧
    lexString ".5" = Except.error (Err.parsing '.' 0) ∧
    lexString "3.5" = Except.ok [⟨TokenType.NUMBER, 3, 0, 2⟩] ∧
    (∀ (s : List Char) (start : Nat), isDigitC (charAt s start) = true →
      isDigitC (charAt s (numberEnd s start - 1)) = true) := by
  refine ⟨?_, ?_, ?_, ?_⟩
  · with_unfolding_all rfl
  · with_unfolding_all rfl
  · with_unfolding_all rfl
  · intro s start h
    exact numberEnd_last_digit h

/-- Witness for C6's general conjunct at the literal `"5"`. -/
theorem C6_witness :
    isDigitC (charAt ['5'] (numberEnd ['5'] 0 - 1)) = true :=
  C6_dot_rule.2.2.2 ['5'] 0 (by decide)

/-- C7 (confirmed): `"1 / 0"` evaluates successfully to positive
infinity; in general, reducing a Divide whose right operand is zero never
raises an error and produces an infinity or NaN, per IEEE 754. -/
theorem C7_division_by_zero :
    evalString "1 / 0" = Except.ok D.posInf ∧
    (∀ (lit : ℚ) (a b : Nat) (l : D) (vals : List D),
        evaluate ⟨TokenType.SLASH, lit, a, b⟩ (D.fin 0 :: l :: vals) =
          Except.ok (D.div l (D.fin 0), vals)) ∧
    (∀ l : D, D.div l (D.fin 0) = D.posInf ∨ D.div l (D.fin 0) = D.negInf ∨
      D.div l (D.fin 0) = D.nan) := by
  refine ⟨by with_unfolding_all rfl, ?_, ?_⟩
  · intro lit a b l vals
    exact evaluate_slash rfl l (D.fin 0) vals
  · intro l
    cases l with
    | fin q =>
      by_cases hq : q = 0
      · simp [D.div, hq]
      · by_cases hq' : 0 < q
        · simp [D.div, hq, hq']
        · simp [D.div, hq, hq']
    | posInf => simp [D.div]
    | negInf => simp [D.div]
    | nan => simp [D.div]

/-- C8 (confirmed): input that is empty or consists only of spaces lexes
to zero tokens, and evaluating the empty token sequence fails with the
cannot-reduce-to-a-single-value error. -/
theorem C8_blank_input :
    (∀ str : String, (∀ c ∈ str.toList, c = ' ') → lexString str = Except.ok []) ∧
    eval_by_shunting_yard [] = Except.error Err.cannotReduce ∧
    evalString "" = Except.error Err.cannotReduce ∧
    evalString "   " = Except.error Err.cannotReduce := by
  refine ⟨?_, by with_unfolding_all rfl, by with_unfolding_all rfl,
    by with_unfolding_all rfl⟩
  intro str h
  exact scan_go_spaces h _ 0 []

/-- Witness for C8 at a two-space input. -/
theorem C8_witness : lexString "  " = Except.ok [] :=
  C8_blank_input.1 "  " (by decide)

/-- C9 (confirmed): every emitted token's span offsets are valid indices
into the source line, `end_at = start_at` for (single-character)
non-number tokens, and a Number token's span covers exactly the consumed
literal, so slicing the source by the span reproduces the literal text. -/
theorem C9_token_spans :
    ∀ (str : String) (ts : List Token), lexString str = Except.ok ts →
      ∀ t ∈ ts, TokenOK str.toList t ∧
        (t.type = TokenType.NUMBER →
          tokenText str.toList t = litChars str.toList t.start_at) := by
  intro str ts h t ht
  have hok := lex_tokens_ok h t ht
  refine ⟨hok, fun hn => ?_⟩
  obtain ⟨-, -, -, hnum⟩ := hok
  obtain ⟨-, hend⟩ := hnum hn
  simp only [tokenText, litChars]
  congr 1
  omega

/-- Witness for C9 at the number token of `"100"`. -/
theorem C9_witness :
    TokenOK "100".toList ⟨TokenType.NUMBER, 10, 0, 2⟩ ∧
    ((⟨TokenType.NUMBER, 10, 0, 2⟩ : Token).type = TokenType.NUMBER →
      tokenText "100".toList ⟨TokenType.NUMBER, 10, 0, 2⟩ =
        litChars "100".toList (⟨TokenType.NUMBER, 10, 0, 2⟩ : Token).start_at) :=
  C9_token_spans "100" [⟨TokenType.NUMBER, 10, 0, 2⟩] (by with_unfolding_all rfl)
    ⟨TokenType.NUMBER, 10, 0, 2⟩ (by simp)

/-- Counterexample to C10 as stated: `"1+--5"` contains two consecutive
unary minuses, yet evaluation does not fail — it succeeds with `-6`
(which is also not the doubly-negated reading `1 + 5 = 6`): the second
UnaryMinus reduces the first against the already-pushed value `1`. -/
theorem C10_counterexample :
    lexString "1+--5" = Except.ok
      [⟨TokenType.NUMBER, 1, 0, 0⟩, ⟨TokenType.PLUS, 0, 1, 1⟩,
       ⟨TokenType.UMINUS, 0, 2, 2⟩, ⟨TokenType.UMINUS, 0, 3, 3⟩,
       ⟨TokenType.NUMBER, 5, 4, 4⟩] ∧
    evalString "1+--5" = Except.ok (D.fin (-6)) ∧
    D.fin (-6) ≠ D.fin 6 := by
  refine ⟨by with_unfolding_all rfl, by with_unfolding_all rfl, ?_⟩
  intro h
  exact absurd (D.fin.inj h) (by norm_num)

/-- C10 (amended): when the token stream begins with two consecutive
UnaryMinus tokens (e.g. input `"--5"`), evaluation fails with the
value-stack-underflow Evaluation error: UnaryMinus has precedence 4 and
the pop condition uses `≥`, so the second UnaryMinus immediately pops and
reduces the first while the value stack is still empty. -/
theorem C10_double_uminus_underflow :
    (∀ (u₁ u₂ : Token) (ts : List Token),
        u₁.type = TokenType.UMINUS → u₂.type = TokenType.UMINUS →
        eval_by_shunting_yard (u₁ :: u₂ :: ts) = Except.error Err.valuesEmpty) ∧
    evalString "--5" = Except.error Err.valuesEmpty := by
  refine ⟨?_, by with_unfolding_all rfl⟩
  intro u₁ u₂ ts h₁ h₂
  have hprec₁ : TOKEN_TYPE_PRECEDENCE u₁.type = 4 := by rw [h₁]; rfl
  have hloop₁ : opLoop (TOKEN_TYPE_PRECEDENCE u₁.type) [] [] = Except.ok ([], []) := by
    rw [hprec₁]
    rfl
  have hpush₁ : push_operator [] u₁ = Except.ok [u₁] := push_operator_ok (by decide)
  have hstep₁ : mainLoop (u₁ :: u₂ :: ts) [] [] = mainLoop (u₂ :: ts) [u₁] [] :=
    mainLoop_op_ok (by rw [hprec₁]; decide) hloop₁ hpush₁
  have hev : evaluate u₁ ([] : List D) = Except.error Err.valuesEmpty := rfl
  have hloop₂ : opLoop (TOKEN_TYPE_PRECEDENCE u₂.type) [u₁] [] =
      Except.error Err.valuesEmpty := by
    simp only [opLoop]
    rw [if_pos ⟨by rw [h₁]; decide, by rw [hprec₁, h₂]; decide⟩]
    simp only [hev]
  have hstep₂ : mainLoop (u₂ :: ts) [u₁] [] = Except.error Err.valuesEmpty := by
    have hnum : ¬(u₂.type = TokenType.NUMBER) := by rw [h₂]; decide
    simp only [mainLoop]
    rw [if_neg hnum, if_pos (by rw [h₂]; decide), hloop₂]
  have hm := hstep₁.trans hstep₂
  simp only [eval_by_shunting_yard, hm]

/-- Witness for C10's amended claim at the token stream of `"--5"`. -/
theorem C10_witness :
    eval_by_shunting_yard
      [⟨TokenType.UMINUS, 0, 0, 0⟩, ⟨TokenType.UMINUS, 0, 1, 1⟩,
       ⟨TokenType.NUMBER, 5, 2, 2⟩] = Except.error Err.valuesEmpty :=
  C10_double_uminus_underflow.1 ⟨TokenType.UMINUS, 0, 0, 0⟩ ⟨TokenType.UMINUS, 0, 1, 1⟩
    [⟨TokenType.NUMBER, 5, 2, 2⟩] rfl rfl
